import Mathlib

/-!
# Verification of the alter-voice voice modulator core

Shallow embedding of `src/voice_mod_experimental.py` (the PTT-capable
variant; the other two variants share the identical pipeline code).
Audio samples are modelled as real numbers, blocks as lists of reals,
spectra as lists of complex numbers.  The carrier wavetable state is the
natural-number cursor threaded explicitly.  The callback's `try/except`
is modelled by an explicit error oracle (`Option ProcStage`), following
the two-outcome result view of the real-time callback.
-/

namespace AlterVoice

open scoped BigOperators

/-- `SAMPLE_RATE = 48000` from the source header. -/
def SAMPLE_RATE : ℕ := 48000

/-- `PITCH_SHIFT = 3.0`, the default pitch preset. -/
noncomputable def PITCH_SHIFT : ℝ := 3.0

/-- `carrier_table_size = 4800` (100 ms at 48 kHz). -/
def carrier_table_size : ℕ := 4800

/-- `carrier_table = np.sin(2*pi*95*np.arange(carrier_table_size)/SAMPLE_RATE)`:
the precomputed 95 Hz sine wavetable. -/
noncomputable def carrier_table : List ℝ :=
  (List.range carrier_table_size).map fun (k : ℕ) =>
    Real.sin (2 * Real.pi * 95 * k / SAMPLE_RATE)

/-- The carrier read of `apply_robotic_effect` (source lines 64-76): slice
`carrier_table[start:end]` when no wrap is needed, otherwise concatenate
`carrier_table[start:]` with `carrier_table[:end - carrier_table_size]`;
the cursor is advanced to `end % carrier_table_size`.  Python slices clamp
out-of-range bounds exactly as `List.take`/`List.drop` do. -/
noncomputable def nextSegment (cursor n : ℕ) : List ℝ × ℕ :=
  let endIdx := cursor + n
  let seg :=
    if endIdx ≤ carrier_table_size then
      (carrier_table.drop cursor).take n
    else
      carrier_table.drop cursor ++ carrier_table.take (endIdx - carrier_table_size)
  (seg, endIdx % carrier_table_size)

open Classical in
/-- `np.round`: round half to even (banker's rounding), the IEEE rule numpy
uses.  `⌊x + 1/2⌋` rounds half up; at an exact tie with an odd result the
value is pulled down to the even neighbour. -/
noncomputable def np_round (x : ℝ) : ℤ :=
  let n := ⌊x + 1 / 2⌋
  if x + 1 / 2 = (n : ℝ) ∧ Odd n then n - 1 else n

/-- The three arithmetic stages of `apply_robotic_effect` (source lines 78-86):
ring-modulate/blend, 10-bit quantize, tanh soft-clip — applied elementwise. -/
noncomputable def roboticMath (audio carrier : List ℝ) (intensity : ℝ) : List ℝ :=
  let modulated := List.zipWith
    (fun a c => a * c * intensity + a * (1 - intensity)) audio carrier
  let quantized := modulated.map fun y => (np_round (y * 2 ^ 10) : ℝ) / 2 ^ 10
  quantized.map fun y => Real.tanh (y * 1.2) * 0.9

/-- One output sample of the robotic effect as a function of the matching
audio and carrier samples. -/
noncomputable def roboticSample (a c intensity : ℝ) : ℝ :=
  Real.tanh ((np_round ((a * c * intensity + a * (1 - intensity)) * 2 ^ 10) : ℝ)
    / 2 ^ 10 * 1.2) * 0.9

/-- `apply_robotic_effect(audio, intensity)`: read a carrier segment of the
input's length from the wavetable (advancing the cursor) and apply the
three-stage robotic math.  The updated cursor is returned explicitly. -/
noncomputable def apply_robotic_effect (audio : List ℝ) (intensity : ℝ)
    (cursor : ℕ) : List ℝ × ℕ :=
  let rd := nextSegment cursor audio.length
  (roboticMath audio rd.1 intensity, rd.2)

/-- `np.fft.rfft`: the `N/2+1` complex bins `X_k = Σ_n x_n e^(-2πikn/N)` of
the real input's Fourier transform. -/
noncomputable def rfft (x : List ℝ) : List ℂ :=
  (List.range (x.length / 2 + 1)).map fun (k : ℕ) =>
    ∑ n ∈ Finset.range x.length,
      (x.getD n 0 : ℂ) *
        Complex.exp (-2 * Real.pi * Complex.I * k * n / x.length)

/-- One iteration of the spectrum-remapping loop body of
`pitch_shift_fast` (source lines 43-47): accumulate source bin `i` into
target bin `int(i / ratio)` of `acc` when that index is in range.  `int()`
truncates toward zero, which for the nonnegative `i / ratio` is the
floor. -/
noncomputable def remapStep (spec : List ℂ) (ratio : ℝ) (acc : List ℂ)
    (i : ℕ) : List ℂ :=
  let t : ℤ := ⌊(i : ℝ) / ratio⌋
  if 0 ≤ t ∧ t < (spec.length : ℤ) then
    acc.set t.toNat (acc.getD t.toNat 0 + spec.getD i 0)
  else acc

/-- The full spectrum-remapping loop (source lines 41-47): start from an
all-zero spectrum of the same size and run `remapStep` over every source
bin. -/
noncomputable def remapSpectrum (spec : List ℂ) (ratio : ℝ) : List ℂ :=
  (List.range spec.length).foldl (remapStep spec ratio)
    (List.replicate spec.length (0 : ℂ))

/-- The Hermitian extension `np.fft.irfft` assumes of its half-spectrum
argument: bins past the midpoint mirror the conjugates of the low bins. -/
noncomputable def hermitianBin (A : List ℂ) (n k : ℕ) : ℂ :=
  if k ≤ n / 2 then A.getD k 0 else (starRingEnd ℂ) (A.getD (n - k) 0)

/-- `np.fft.irfft(A, n)`: real part of the inverse DFT of the Hermitian
extension of `A`, at output length `n`. -/
noncomputable def irfft (A : List ℂ) (n : ℕ) : List ℝ :=
  (List.range n).map fun (j : ℕ) =>
    ((∑ k ∈ Finset.range n,
        hermitianBin A n k * Complex.exp (2 * Real.pi * Complex.I * k * j / n))
      / n).re

/-- `np.max(np.abs(xs))` (0 on the empty list, which numpy instead rejects;
the pipeline only reaches it with nonempty blocks). -/
noncomputable def absMax (xs : List ℝ) : ℝ := xs.foldr (fun a m => max |a| m) 0

/-- `pitch_shift_fast(audio, semitones)` (source lines 28-57): bypass below
the 0.1-semitone threshold; otherwise remap the rfft spectrum by
`ratio = 2^(semitones/12)`, inverse-transform at the original length, and
rescale the peak back to the input's peak unless the shifted peak is zero. -/
noncomputable def pitch_shift_fast (audio : List ℝ) (semitones : ℝ) : List ℝ :=
  if |semitones| < 0.1 then audio
  else
    let ratio : ℝ := (2 : ℝ) ^ (semitones / 12)
    let spectrum := rfft audio
    let new_spectrum := remapSpectrum spectrum ratio
    let shifted := irfft new_spectrum audio.length
    let max_val := absMax shifted
    if 0 < max_val then shifted.map fun y => y / max_val * absMax audio
    else shifted

/-- `np.clip(y, -0.95, 0.95)`: values below the lower bound are raised to
it, values above the upper bound lowered to it. -/
noncomputable def clip (y : ℝ) : ℝ := min 0.95 (max (-0.95) y)

/-- The pipeline inside the callback's `try` block (source lines 105-128):
conditional pitch shift with truncate/pad to the block length, conditional
robotic effect (advancing the carrier cursor), then ×2.2 gain and hard clip.
Returns the mono block to be written to both channels and the new cursor. -/
noncomputable def processBlock (pitch : ℝ) (robotic : Bool) (mono : List ℝ)
    (frames cursor : ℕ) : List ℝ × ℕ :=
  let shifted :=
    if 0.1 < |pitch| then
      let s := pitch_shift_fast mono pitch
      if frames < s.length then s.take frames
      else if s.length < frames then s ++ List.replicate (frames - s.length) 0
      else s
    else mono
  let rob := if robotic then apply_robotic_effect shifted 0.7 cursor
    else (shifted, cursor)
  (rob.1.map fun y => clip (y * 2.2), rob.2)

/-- Stages of the guarded pipeline at which a processing exception can
strike (the callback's `try` spans all of them). -/
inductive ProcStage
  | pitchStage
  | lengthStage
  | roboticStage
  | gainStage
  | writeStage

/-- The three ways a callback invocation can end: muted by the PTT gate,
normally processed, or the exception-handler passthrough. -/
inductive Outcome
  | muted
  | processed
  | fallback

/-- `audio_callback` (source lines 90-133), as a function of the parameter
snapshot, the mono input block, the frame count, the carrier cursor, and an
error oracle saying whether (and where) a processing exception strikes.
If PTT is enabled and the talk key is not held, both channels get zeros and
nothing else runs.  Otherwise, on an exception anywhere in the pipeline the
handler writes the mono input scaled by 1.5 to both channels, unclipped;
on success the processed block goes to both channels. -/
noncomputable def audio_callback (pitch : ℝ) (robotic ptt talking : Bool)
    (mono : List ℝ) (frames cursor : ℕ) (err : Option ProcStage) :
    List ℝ × List ℝ × Outcome :=
  if ptt && !talking then
    (List.replicate frames 0, List.replicate frames 0, Outcome.muted)
  else
    match err with
    | some _ => (mono.map (· * 1.5), mono.map (· * 1.5), Outcome.fallback)
    | none =>
      let out := (processBlock pitch robotic mono frames cursor).1
      (out, out, Outcome.processed)

/-- `ParameterState`: the four control values shared with the audio thread
(source lines 18-21). -/
structure ControlState where
  pitch : ℝ
  robotic : Bool
  ptt : Bool
  talking : Bool

/-- The defaults at process start: `pitch=+3.0`, `robotic=true`,
`ptt=false`, `talking=false`. -/
noncomputable def initialState : ControlState :=
  { pitch := PITCH_SHIFT, robotic := true, ptt := false, talking := false }

/-- The single-character dispatch of the control loop (source lines
184-204): `r`/`R` toggles the robotic effect; `p`/`P` toggles PTT and, when
that disables PTT, also resets `is_talking`; space toggles `is_talking`
only when PTT is enabled; `+`/`=`/`-`/`_`/`0` adjust the pitch; every other
character is ignored. -/
noncomputable def handleKey (s : ControlState) (k : Char) : ControlState :=
  if k = 'r' ∨ k = 'R' then { s with robotic := !s.robotic }
  else if k = 'p' ∨ k = 'P' then
    let ptt' := !s.ptt
    { s with ptt := ptt', talking := if ptt' then s.talking else false }
  else if k = ' ' then
    (if s.ptt then { s with talking := !s.talking } else s)
  else if k = '+' ∨ k = '=' then { s with pitch := s.pitch + 0.5 }
  else if k = '-' ∨ k = '_' then { s with pitch := s.pitch - 0.5 }
  else if k = '0' then { s with pitch := PITCH_SHIFT }
  else s

/-- The escape-sequence tail of the dispatch (source lines 205-214): after
`ESC`, two more polled reads; `[A` raises the pitch, `[B` lowers it, and
anything else does nothing. -/
noncomputable def escStep (s : ControlState) (n1 n2 : Option Char) : ControlState :=
  if n1 = some '[' then
    if n2 = some 'A' then { s with pitch := s.pitch + 0.5 }
    else if n2 = some 'B' then { s with pitch := s.pitch - 0.5 }
    else s
  else s

/-- The control loop (source lines 177-214) over a finite stream of polled
reads (`none` = poll timeout).  `q` stops the loop; `ESC` consumes the next
two reads for the arrow-key tail; every other key goes through
`handleKey`. -/
noncomputable def runKeys : List (Option Char) → ControlState → ControlState
  | [], s => s
  | none :: rest, s => runKeys rest s
  | some k :: rest, s =>
    if k = 'q' then s
    else if k = '\x1b' then
      runKeys (rest.drop 2) (escStep s (rest.getD 0 none) (rest.getD 1 none))
    else runKeys rest (handleKey s k)
termination_by l _ => l.length
decreasing_by
  · simp
  · simp only [List.length_cons, List.length_drop]
    omega
  · simp

/-! ## Basic facts about the embedded definitions -/

lemma carrier_table_length : carrier_table.length = carrier_table_size := by
  rw [carrier_table, List.length_map, List.length_range]

lemma nextSegment_snd (c n : ℕ) :
    (nextSegment c n).2 = (c + n) % carrier_table_size := by
  simp [nextSegment]

lemma getD_set_self {l : List ℂ} {j : ℕ} (a : ℂ) (h : j < l.length) :
    (l.set j a).getD j 0 = a := by
  rw [List.getD_eq_getElem _ _ (by simpa using h)]
  simp

lemma getD_set_ne {l : List ℂ} {i j : ℕ} (a : ℂ) (h : i ≠ j) :
    (l.set i a).getD j 0 = l.getD j 0 := by
  simp [List.getD_eq_getD_get?, List.getElem?_set_ne h]

lemma getD_replicate {α : Type} [Inhabited α] {n j : ℕ} (a d : α) (h : j < n) :
    (List.replicate n a).getD j d = a := by
  rw [List.getD_eq_getElem _ _ (by simpa using h)]
  simp

lemma abs_tanh_lt_one (x : ℝ) : |Real.tanh x| < 1 := by
  have key : ∀ y : ℝ, Real.tanh y < 1 := by
    intro y
    rw [Real.tanh_eq_sinh_div_cosh]
    exact (div_lt_one (Real.cosh_pos y)).2 (Real.sinh_lt_cosh y)
  rw [abs_lt]
  refine ⟨?_, key x⟩
  have h := key (-x)
  rw [Real.tanh_neg] at h
  linarith

lemma clip_mem (y : ℝ) : -0.95 ≤ clip y ∧ clip y ≤ 0.95 := by
  unfold clip
  exact ⟨le_min (by norm_num) (le_max_left _ _), min_le_left _ _⟩

/-! ## C7: sub-threshold bypass of the pitch shifter -/

/-- C7: for `|semitones| < 0.1` the pitch shifter returns its input
unchanged, for any input and independently of the sample rate. -/
theorem pitch_shift_bypass (x : List ℝ) (s : ℝ) (h : |s| < 0.1) :
    pitch_shift_fast x s = x := by
  simp [pitch_shift_fast, h]

/-- Witness for C7 at `x = [1, -1]`, `s = 0`. -/
theorem pitch_shift_bypass_witness :
    |(0 : ℝ)| < 0.1 ∧ pitch_shift_fast [1, -1] 0 = [1, -1] :=
  ⟨by norm_num, pitch_shift_bypass [1, -1] 0 (by norm_num)⟩

/-! ## C5: the push-to-talk gate -/

/-- C5: with PTT enabled and the talk key not held, the callback writes
zeros to both channels and performs no further processing (outcome
`muted`), for every input block, pitch, robotic setting, cursor, and even
under the error oracle. -/
theorem callback_ptt_mute (pitch : ℝ) (robotic : Bool) (mono : List ℝ)
    (frames cursor : ℕ) (err : Option ProcStage) :
    audio_callback pitch robotic true false mono frames cursor err
      = (List.replicate frames 0, List.replicate frames 0, Outcome.muted) := by
  simp [audio_callback]

/-! ## C9: exception fallback passthrough -/

/-- C9: whenever a processing exception strikes anywhere in the pipeline
(and the PTT gate is not muting), the callback swallows it and writes the
mono input scaled by 1.5 to both channels, unclipped. -/
theorem callback_fallback_passthrough (pitch : ℝ) (robotic ptt talking : Bool)
    (mono : List ℝ) (frames cursor : ℕ) (stage : ProcStage)
    (hgate : (ptt && !talking) = false) :
    audio_callback pitch robotic ptt talking mono frames cursor (some stage)
      = (mono.map (· * 1.5), mono.map (· * 1.5), Outcome.fallback) := by
  simp [audio_callback, hgate]

/-- Witness for C9: PTT off, a failure at the robotic stage. -/
theorem callback_fallback_passthrough_witness :
    audio_callback 3 true false false [0.4] 2 7 (some ProcStage.roboticStage)
      = ([0.4].map (· * 1.5), [0.4].map (· * 1.5), Outcome.fallback) :=
  callback_fallback_passthrough 3 true false false [0.4] 2 7
    ProcStage.roboticStage (by simp)

/-! ## C3: additivity of the carrier cursor -/

lemma carrier_cursor_foldl (ls : List ℕ) :
    ∀ c0 : ℕ, c0 < carrier_table_size →
      ls.foldl (fun c l => (nextSegment c l).2) c0
        = (c0 + ls.sum) % carrier_table_size := by
  induction ls with
  | nil =>
    intro c0 h
    simpa using (Nat.mod_eq_of_lt h).symm
  | cons l ls ih =>
    intro c0 h
    rw [List.foldl_cons, List.sum_cons, nextSegment_snd,
      ih _ (Nat.mod_lt _ (by norm_num [carrier_table_size])),
      Nat.mod_add_mod, ← Nat.add_assoc]

/-- C3: after any sequence of carrier reads of lengths `l1, ..., lk`, the
cursor equals `(initialCursor + Σ li) mod tableSize` — so it depends only
on the total, not the split — and it always stays in `[0, tableSize)`. -/
theorem carrier_cursor_fold (ls : List ℕ) (c0 : ℕ)
    (h : c0 < carrier_table_size) :
    ls.foldl (fun c l => (nextSegment c l).2) c0
        = (c0 + ls.sum) % carrier_table_size
    ∧ ls.foldl (fun c l => (nextSegment c l).2) c0 < carrier_table_size := by
  refine ⟨carrier_cursor_foldl ls c0 h, ?_⟩
  rw [carrier_cursor_foldl ls c0 h]
  exact Nat.mod_lt _ (by norm_num [carrier_table_size])

/-- Witness for C3: cursor 100, reads of lengths 4800 and 1. -/
theorem carrier_cursor_fold_witness :
    (100 : ℕ) < carrier_table_size ∧
    ([4800, 1] : List ℕ).foldl (fun c l => (nextSegment c l).2) 100
        = (100 + ([4800, 1] : List ℕ).sum) % carrier_table_size ∧
    ([4800, 1] : List ℕ).foldl (fun c l => (nextSegment c l).2) 100
        < carrier_table_size :=
  ⟨by norm_num [carrier_table_size],
    carrier_cursor_fold [4800, 1] 100 (by norm_num [carrier_table_size])⟩

/-! ## C2: length of the carrier segment -/

/-- C2 counterexample: at cursor 0 a request of 9601 samples (more than
twice the table) yields only 9600, because the head slice
`carrier_table[:end - tableSize]` clamps at the table length.  The claim
that the segment always has exactly the requested length is false. -/
theorem nextSegment_multiwrap_short :
    (nextSegment 0 9601).1.length ≠ 9601 := by
  have h : (nextSegment 0 9601).1.length = 9600 := by
    simp only [nextSegment]
    rw [if_neg (by norm_num [carrier_table_size])]
    simp [carrier_table_length, carrier_table_size]
  omega

/-- C2 amended: the carrier segment has exactly the requested length `n`
whenever the read needs at most one wrap, i.e. `cursor + n ≤ 2·tableSize`
(which covers every length up to the table size, hence every actual block
size); beyond that the concatenated read comes up short. -/
theorem nextSegment_length_eq (c n : ℕ) (hc : c < carrier_table_size)
    (hn : c + n ≤ 2 * carrier_table_size) :
    (nextSegment c n).1.length = n := by
  simp only [nextSegment]
  split
  · simp only [List.length_take, List.length_drop, carrier_table_length]
    omega
  · simp only [List.length_append, List.length_drop, List.length_take,
      carrier_table_length]
    simp only [carrier_table_size] at *
    omega

/-- Witness for C2 (amended) at cursor 4700, length 4800: a read that wraps
once and spans the whole table. -/
theorem nextSegment_length_eq_witness :
    (4700 : ℕ) < carrier_table_size ∧
    4700 + 4800 ≤ 2 * carrier_table_size ∧
    (nextSegment 4700 4800).1.length = 4800 :=
  ⟨by norm_num [carrier_table_size], by norm_num [carrier_table_size],
    nextSegment_length_eq 4700 4800 (by norm_num [carrier_table_size])
      (by norm_num [carrier_table_size])⟩

/-! ## C4: the robotic effect is strictly inside (-0.9, 0.9) -/

lemma roboticMath_eq_zipWith (audio carrier : List ℝ) (intensity : ℝ) :
    roboticMath audio carrier intensity
      = List.zipWith (fun a c => roboticSample a c intensity) audio carrier := by
  simp [roboticMath, roboticSample, List.map_zipWith]

/-- C4: for audio and carrier samples in `[-1, 1]` and intensity in
`[0, 1]`, every sample the robotic effect produces lies strictly inside
`(-0.9, 0.9)` — the final `tanh(y·1.2)·0.9` stage enforces this. -/
theorem roboticMath_bounded (audio carrier : List ℝ) (intensity : ℝ)
    (ha : ∀ a ∈ audio, |a| ≤ 1) (hc : ∀ c ∈ carrier, |c| ≤ 1)
    (hi0 : 0 ≤ intensity) (hi1 : intensity ≤ 1) :
    ∀ y ∈ roboticMath audio carrier intensity, -0.9 < y ∧ y < 0.9 := by
  intro y hy
  simp only [roboticMath, List.mem_map] at hy
  obtain ⟨z, _, rfl⟩ := hy
  have h := abs_tanh_lt_one (z * 1.2)
  rw [abs_lt] at h
  constructor <;> nlinarith [h.1, h.2]

/-- Witness for C4 at `audio = [1]`, `carrier = [-1]`, `intensity = 0.7`. -/
theorem roboticMath_bounded_witness :
    -0.9 < roboticSample 1 (-1) 0.7 ∧ roboticSample 1 (-1) 0.7 < 0.9 :=
  roboticMath_bounded [1] [-1] 0.7 (by norm_num) (by norm_num)
    (by norm_num) (by norm_num) (roboticSample 1 (-1) 0.7)
    (by simp [roboticMath_eq_zipWith])

/-! ## C1: the engine output bound -/

/-- C1 counterexample: on the exception path the fallback writes
`mono * 1.5` unclipped, so the input block `[1]` (a legal sample in
`[-1, 1]`) produces the out-of-range sample `1.5`.  The claim that the
output is within `[-0.95, 0.95]` on every path, including the exception
path, is false. -/
theorem callback_bound_fallback_cx :
    ¬ (∀ y : ℝ,
        (y ∈ (audio_callback 3 true false false [1] 1 0
                (some ProcStage.pitchStage)).1 ∨
         y ∈ (audio_callback 3 true false false [1] 1 0
                (some ProcStage.pitchStage)).2.1) →
        -0.95 ≤ y ∧ y ≤ 0.95) := by
  intro h
  have hm : (1.5 : ℝ) ∈ (audio_callback 3 true false false [1] 1 0
      (some ProcStage.pitchStage)).1 := by
    norm_num [audio_callback]
  have := (h 1.5 (Or.inl hm)).2
  norm_num at this

/-- C1 amended: on every path that does not go through the exception
handler — the PTT mute and the normal pipeline — every sample written to
either output channel lies within `[-0.95, 0.95]`, for every input block
and parameter combination; the exception fallback instead emits the mono
input scaled by 1.5 with no clip, which can leave that range. -/
theorem callback_output_bounded (pitch : ℝ) (robotic ptt talking : Bool)
    (mono : List ℝ) (frames cursor : ℕ) (y : ℝ)
    (hy : y ∈ (audio_callback pitch robotic ptt talking mono frames cursor
                none).1 ∨
          y ∈ (audio_callback pitch robotic ptt talking mono frames cursor
                none).2.1) :
    -0.95 ≤ y ∧ y ≤ 0.95 := by
  have hmut : ∀ l : List ℝ,
      (l = List.replicate frames (0 : ℝ) ∨
        l = (processBlock pitch robotic mono frames cursor).1) →
      y ∈ l → -0.95 ≤ y ∧ y ≤ 0.95 := by
    rintro l (rfl | rfl) hyl
    · rw [List.eq_of_mem_replicate hyl]
      norm_num
    · simp only [processBlock, List.mem_map] at hyl
      obtain ⟨z, _, rfl⟩ := hyl
      exact clip_mem (z * 2.2)
  simp only [audio_callback] at hy
  by_cases hg : (ptt && !talking) = true
  · rw [if_pos hg] at hy
    rcases hy with hy | hy
    · exact hmut _ (Or.inl rfl) hy
    · exact hmut _ (Or.inl rfl) hy
  · rw [if_neg hg] at hy
    rcases hy with hy | hy
    · exact hmut _ (Or.inr rfl) hy
    · exact hmut _ (Or.inr rfl) hy

/-- Witness for C1 (amended): PTT off, pitch 0, robotic off, input `[1]` —
the processed sample is `clip (1 · 2.2)` and it is within the range. -/
theorem callback_output_bounded_witness :
    -0.95 ≤ clip (1 * 2.2) ∧ clip (1 * 2.2) ≤ 0.95 :=
  callback_output_bounded 0 false false false [1] 1 0 (clip (1 * 2.2))
    (Or.inl (by norm_num [audio_callback, processBlock]))

/-! ## C8: the pitch shifter on an all-zero block -/

lemma rfft_replicate_zero (n : ℕ) :
    rfft (List.replicate n (0 : ℝ)) = List.replicate (n / 2 + 1) 0 := by
  have hz : ∀ j : ℕ, (List.replicate n (0 : ℝ)).getD j 0 = 0 := by
    intro j
    rcases lt_or_le j n with h | h
    · rw [getD_replicate _ _ (by simpa using h)]
    · rw [List.getD_eq_default _ _ (by simpa using h)]
  simp only [rfft, List.length_replicate]
  rw [show (fun (k : ℕ) => ∑ m ∈ Finset.range n,
        ((List.replicate n (0 : ℝ)).getD m 0 : ℂ) *
          Complex.exp (-2 * Real.pi * Complex.I * k * m / n))
      = fun _ => (0 : ℂ) by
    funext k
    refine Finset.sum_eq_zero fun m _ => ?_
    rw [hz m]
    simp]
  rw [List.map_const', List.length_range]

lemma set_replicate_self {α : Type} (m j : ℕ) (a : α) :
    (List.replicate m a).set j a = List.replicate m a := by
  induction m generalizing j with
  | zero => simp
  | succ m ih =>
    cases j with
    | zero => simp [List.replicate_succ]
    | succ j => simp [List.replicate_succ, ih]

lemma remapSpectrum_replicate_zero (m : ℕ) (ratio : ℝ) :
    remapSpectrum (List.replicate m (0 : ℂ)) ratio = List.replicate m 0 := by
  have hz : ∀ j : ℕ, (List.replicate m (0 : ℂ)).getD j 0 = 0 := by
    intro j
    rcases lt_or_le j m with h | h
    · rw [getD_replicate _ _ (by simpa using h)]
    · rw [List.getD_eq_default _ _ (by simpa using h)]
  simp only [remapSpectrum, List.length_replicate]
  have hstep : ∀ i : ℕ,
      remapStep (List.replicate m (0 : ℂ)) ratio (List.replicate m 0) i
        = List.replicate m 0 := by
    intro i
    unfold remapStep
    dsimp only
    split
    · rw [hz, hz, add_zero, set_replicate_self]
    · rfl
  have step : ∀ l : List ℕ,
      l.foldl (remapStep (List.replicate m (0 : ℂ)) ratio)
        (List.replicate m 0) = List.replicate m 0 := by
    intro l
    induction l with
    | nil => rfl
    | cons i l ih => rw [List.foldl_cons, hstep, ih]
  exact step _

lemma irfft_replicate_zero (m n : ℕ) :
    irfft (List.replicate m (0 : ℂ)) n = List.replicate n 0 := by
  have hz : ∀ j : ℕ, (List.replicate m (0 : ℂ)).getD j 0 = 0 := by
    intro j
    rcases lt_or_le j m with h | h
    · rw [getD_replicate _ _ (by simpa using h)]
    · rw [List.getD_eq_default _ _ (by simpa using h)]
  simp only [irfft]
  rw [show (fun (j : ℕ) =>
        ((∑ k ∈ Finset.range n,
            hermitianBin (List.replicate m (0 : ℂ)) n k *
              Complex.exp (2 * Real.pi * Complex.I * k * j / n)) / n).re)
      = fun _ => (0 : ℝ) by
    funext j
    rw [show (∑ k ∈ Finset.range n,
          hermitianBin (List.replicate m (0 : ℂ)) n k *
            Complex.exp (2 * Real.pi * Complex.I * k * j / n)) = 0 by
      refine Finset.sum_eq_zero fun k _ => ?_
      rw [show hermitianBin (List.replicate m (0 : ℂ)) n k = 0 by
        unfold hermitianBin
        split <;> simp [hz]]
      simp]
    simp]
  rw [List.map_const', List.length_range]

lemma absMax_replicate_zero (n : ℕ) :
    absMax (List.replicate n (0 : ℝ)) = 0 := by
  unfold absMax
  induction n with
  | zero => rfl
  | succ n ih =>
    rw [List.replicate_succ, List.foldr_cons, ih]
    simp

/-- C8: on an all-zero input block of any positive length, the pitch
shifter returns an all-zero block of the same length for every semitones
value — the peak-normalization guard (`if max_val > 0`) is not taken, so
no division by zero occurs. -/
theorem pitch_shift_zero_input (n : ℕ) (s : ℝ) (hn : 0 < n) :
    pitch_shift_fast (List.replicate n 0) s = List.replicate n 0 := by
  unfold pitch_shift_fast
  split
  · rfl
  · simp only [List.length_replicate, rfft_replicate_zero,
      remapSpectrum_replicate_zero, irfft_replicate_zero, absMax_replicate_zero]
    rw [if_neg (by norm_num)]

/-- Witness for C8 at `n = 4`, `s = 7`. -/
theorem pitch_shift_zero_input_witness :
    (0 : ℕ) < 4 ∧ pitch_shift_fast (List.replicate 4 0) 7 = List.replicate 4 0 :=
  ⟨by norm_num, pitch_shift_zero_input 4 7 (by norm_num)⟩

/-! ## C6: the spectrum-remapping loop accumulates fibers -/

lemma foldl_range_succ {α : Type} (f : α → ℕ → α) (b : α) (m : ℕ) :
    (List.range (m + 1)).foldl f b = f ((List.range m).foldl f b) m := by
  rw [List.range_succ, List.foldl_append]
  rfl

lemma remap_foldl_length (spec : List ℂ) (ratio : ℝ) :
    ∀ (l : List ℕ) (acc : List ℂ),
      (l.foldl (remapStep spec ratio) acc).length = acc.length := by
  intro l
  induction l with
  | nil => intro acc; rfl
  | cons i l ih =>
    intro acc
    rw [List.foldl_cons, ih]
    unfold remapStep
    dsimp only
    split
    · rw [List.length_set]
    · rfl

lemma remapStep_apply (spec : List ℂ) (ratio : ℝ) (acc : List ℂ) (i : ℕ) :
    remapStep spec ratio acc i
      = if 0 ≤ ⌊(i : ℝ) / ratio⌋ ∧ ⌊(i : ℝ) / ratio⌋ < (spec.length : ℤ) then
          acc.set (⌊(i : ℝ) / ratio⌋).toNat
            (acc.getD (⌊(i : ℝ) / ratio⌋).toNat 0 + spec.getD i 0)
        else acc := rfl

lemma remap_foldl_getD (spec : List ℂ) (ratio : ℝ) :
    ∀ (m : ℕ) (acc : List ℂ), acc.length = spec.length →
      ∀ j : ℕ, j < spec.length →
      ((List.range m).foldl (remapStep spec ratio) acc).getD j 0
        = acc.getD j 0 +
          ∑ i ∈ (Finset.range m).filter
              (fun (i : ℕ) => ⌊(i : ℝ) / ratio⌋ = (j : ℤ)),
            spec.getD i 0 := by
  intro m
  induction m with
  | zero =>
    intro acc _ j _
    simp
  | succ m ih =>
    intro acc hlen j hj
    have hFlen : ((List.range m).foldl (remapStep spec ratio) acc).length
        = spec.length := by
      rw [remap_foldl_length, hlen]
    rw [foldl_range_succ, Finset.range_succ, Finset.filter_insert,
      remapStep_apply]
    by_cases hm : ⌊(m : ℝ) / ratio⌋ = (j : ℤ)
    · rw [if_pos hm, Finset.sum_insert (by simp)]
      have ht : (⌊(m : ℝ) / ratio⌋).toNat = j := by
        rw [hm]
        exact Int.toNat_natCast j
      rw [if_pos ⟨by rw [hm]; exact Int.natCast_nonneg j,
        by rw [hm]; exact_mod_cast hj⟩]
      rw [ht, getD_set_self _ (by rw [hFlen]; exact hj),
        ih acc hlen j hj]
      ring
    · rw [if_neg hm]
      split
      · next hcond =>
        have hne : (⌊(m : ℝ) / ratio⌋).toNat ≠ j := by
          intro hEq
          apply hm
          rw [← hEq, Int.toNat_of_nonneg hcond.1]
        rw [getD_set_ne _ hne]
        exact ih acc hlen j hj
      · exact ih acc hlen j hj

lemma remapSpectrum_getD (spec : List ℂ) (ratio : ℝ) (j : ℕ)
    (hj : j < spec.length) :
    (remapSpectrum spec ratio).getD j 0
      = ∑ i ∈ (Finset.range spec.length).filter
          (fun (i : ℕ) => ⌊(i : ℝ) / ratio⌋ = (j : ℤ)),
          spec.getD i 0 := by
  unfold remapSpectrum
  rw [remap_foldl_getD spec ratio spec.length _ (List.length_replicate ..) j hj,
    getD_replicate _ _ hj, zero_add]

/-- C6: for `|semitones| ≥ 0.1` the pitch shifter's new spectrum has the
`N/2+1` rfft bins, each target bin `j` holds the sum of all source bins `i`
with `⌊i / 2^(semitones/12)⌋ = j` (collisions accumulate rather than
overwrite), and every target bin no source bin maps to is zero. -/
theorem pitch_spectrum_accumulation (audio : List ℝ) (s : ℝ)
    (h : 0.1 ≤ |s|) :
    (rfft audio).length = audio.length / 2 + 1 ∧
    (∀ j : ℕ, j < (rfft audio).length →
      (remapSpectrum (rfft audio) ((2 : ℝ) ^ (s / 12))).getD j 0
        = ∑ i ∈ (Finset.range (rfft audio).length).filter
            (fun (i : ℕ) => ⌊(i : ℝ) / (2 : ℝ) ^ (s / 12)⌋ = (j : ℤ)),
            (rfft audio).getD i 0) ∧
    (∀ j : ℕ, j < (rfft audio).length →
      (∀ i : ℕ, i < (rfft audio).length →
          ⌊(i : ℝ) / (2 : ℝ) ^ (s / 12)⌋ ≠ (j : ℤ)) →
      (remapSpectrum (rfft audio) ((2 : ℝ) ^ (s / 12))).getD j 0 = 0) := by
  refine ⟨by rw [rfft, List.length_map, List.length_range], ?_, ?_⟩
  · intro j hj
    exact remapSpectrum_getD (rfft audio) _ j hj
  · intro j hj hnone
    rw [remapSpectrum_getD (rfft audio) _ j hj,
      Finset.filter_false_of_mem
        (fun i hi => hnone i (Finset.mem_range.1 hi)),
      Finset.sum_empty]

/-- Witness for C6 at `audio = [0, 0]`, `s = 12`, target bin 0. -/
theorem pitch_spectrum_accumulation_witness :
    (0.1 : ℝ) ≤ |(12 : ℝ)| ∧
    (remapSpectrum (rfft [0, 0]) ((2 : ℝ) ^ ((12 : ℝ) / 12))).getD 0 0
      = ∑ i ∈ (Finset.range (rfft [0, 0]).length).filter
          (fun (i : ℕ) => ⌊(i : ℝ) / (2 : ℝ) ^ ((12 : ℝ) / 12)⌋ = ((0 : ℕ) : ℤ)),
          (rfft [0, 0]).getD i 0 :=
  ⟨by norm_num,
    (pitch_spectrum_accumulation [0, 0] 12 (by norm_num)).2.1 0
      (by norm_num [rfft])⟩

/-! ## C10: the PTT/talking flag discipline of the control loop -/

lemma handleKey_inv (s : ControlState) (k : Char)
    (h : s.talking = true → s.ptt = true) :
    (handleKey s k).talking = true → (handleKey s k).ptt = true := by
  unfold handleKey
  dsimp only
  split_ifs <;> intro ht <;> simp_all

lemma escStep_flags (s : ControlState) (n1 n2 : Option Char) :
    (escStep s n1 n2).ptt = s.ptt ∧ (escStep s n1 n2).talking = s.talking := by
  unfold escStep
  split_ifs <;> simp

lemma runKeys_inv (l : List (Option Char)) (s : ControlState)
    (h : s.talking = true → s.ptt = true) :
    (runKeys l s).talking = true → (runKeys l s).ptt = true := by
  have H : ∀ (n : ℕ) (l : List (Option Char)) (s : ControlState),
      l.length ≤ n → (s.talking = true → s.ptt = true) →
      ((runKeys l s).talking = true → (runKeys l s).ptt = true) := by
    intro n
    induction n with
    | zero =>
      intro l s hl hs
      rw [List.eq_nil_of_length_eq_zero (Nat.le_zero.1 hl)]
      simpa [runKeys] using hs
    | succ n ih =>
      intro l s hl hs
      match l with
      | [] => simpa [runKeys] using hs
      | none :: rest =>
        have heq : runKeys (none :: rest) s = runKeys rest s := by
          simp [runKeys]
        rw [heq]
        exact ih rest s (by simp only [List.length_cons] at hl; omega) hs
      | some k :: rest =>
        have hlen : rest.length ≤ n := by
          simp only [List.length_cons] at hl
          omega
        rw [runKeys]
        split_ifs with hq hesc
        · exact hs
        · refine ih (rest.drop 2) _ ?_ ?_
          · simp only [List.length_drop]
            omega
          · intro ht
            rw [(escStep_flags s (rest.getD 0 none) (rest.getD 1 none)).1]
            exact hs (by rw [← (escStep_flags s (rest.getD 0 none) (rest.getD 1 none)).2]; exact ht)
        · exact ih rest _ hlen (handleKey_inv s k hs)
  exact H l.length l s le_rfl h

/-- C10: from the default state the invariant `isTalking → pttEnabled`
holds after any input sequence; space leaves the state unchanged when PTT
is off; the `p` toggle that disables PTT also forces `isTalking` off; and
no key other than `p`/`P`/space (escape sequences included) touches either
flag. -/
theorem control_flags_invariant :
    (∀ inputs : List (Option Char),
        (runKeys inputs initialState).talking = true →
        (runKeys inputs initialState).ptt = true) ∧
    (∀ s : ControlState, s.ptt = false → handleKey s ' ' = s) ∧
    (∀ s : ControlState, s.ptt = true →
        (handleKey s 'p').ptt = false ∧ (handleKey s 'p').talking = false) ∧
    (∀ (s : ControlState) (k : Char), k ≠ 'p' → k ≠ 'P' → k ≠ ' ' →
        (handleKey s k).ptt = s.ptt ∧ (handleKey s k).talking = s.talking) ∧
    (∀ (s : ControlState) (n1 n2 : Option Char),
        (escStep s n1 n2).ptt = s.ptt ∧ (escStep s n1 n2).talking = s.talking) := by
  refine ⟨?_, ?_, ?_, ?_, escStep_flags⟩
  · intro inputs
    exact runKeys_inv inputs initialState
      (by intro h; simp [initialState] at h)
  · intro s h
    simp [handleKey, h]
  · intro s h
    simp [handleKey, h]
  · intro s k h1 h2 h3
    unfold handleKey
    split_ifs <;> simp_all

/-- Witness for C10: enabling PTT with `p` then toggling talk with space
reaches a talking state whose PTT flag the theorem forces on; the other
parts are instanced at concrete states and the key `x`. -/
theorem control_flags_invariant_witness :
    (runKeys [some 'p', some ' '] initialState).ptt = true ∧
    handleKey ⟨0, false, false, false⟩ ' ' = ⟨0, false, false, false⟩ ∧
    (handleKey ⟨0, false, true, false⟩ 'p').ptt = false ∧
    (handleKey ⟨0, false, false, true⟩ 'x').talking
      = (⟨0, false, false, true⟩ : ControlState).talking :=
  ⟨control_flags_invariant.1 [some 'p', some ' ']
      (by simp [runKeys, handleKey, initialState]),
    control_flags_invariant.2.1 ⟨0, false, false, false⟩ rfl,
    (control_flags_invariant.2.2.1 ⟨0, false, true, false⟩ rfl).1,
    (control_flags_invariant.2.2.2.1 ⟨0, false, false, true⟩ 'x'
      (by decide) (by decide) (by decide)).2⟩

end AlterVoice
